import Mathlib

/-!
# The tokenizing payload codec of `encryption/data_converter.go`

A shallow embedding of `Codec.Encode`, `Codec.Decode`, `Codec.getKey` and
`NewEncryptionDataConverter`, followed by the properties proved about them.

Conventions of the embedding.

* Go `string` and `[]byte` are both byte sequences and the conversions
  `string(b)` and `[]byte(s)` keep the contents, so both are `String`.
* A `[]*commonpb.Payload` is a `List (Option Payload)`: `none` is the nil
  pointer, and reading a field through it panics.
* A Go `(payloads, err)` return is `Outcome.ret payloads err`; a run-time
  panic is `Outcome.panic`.
* The collaborators the codec calls but does not define (the content store
  client, the cipher pair, `uuid.New`, `encoding/json`) are parameters.  The
  store and the random source are explicit state, threaded through every call.
* Every call to the store, to the key resolver and to the cipher is appended to
  `World.trace`, which is how "is (not) invoked" is stated.
-/

set_option autoImplicit false

namespace Encryption

/-- Go `error` values, identified with their message. -/
abbrev Error := String

/-- MetadataEncodingEncrypted is "binary/encrypted" (source line 19). -/
def MetadataEncodingEncrypted : String := "binary/encrypted"

/-- MetadataEncryptionKeyID is "encryption-key-id" (source line 22). -/
def MetadataEncryptionKeyID : String := "encryption-key-id"

/-- The constant `converter.MetadataEncoding` of the Temporal SDK. -/
def MetadataEncoding : String := "encoding"

/-- The constant `converter.MetadataEncodingJSON` of the Temporal SDK. -/
def MetadataEncodingJSON : String := "json/plain"

/-- The fixed collection name used at source lines 125 and 171. -/
def codexCollection : String := "codex-data"

/-- A `commonpb.Payload`: the metadata map (as an association list read with
`List.lookup`) and the data bytes. -/
structure Payload where
  Metadata : List (String × String)
  Data : String
deriving DecidableEq

/-- The expression `string(p.Metadata[converter.MetadataEncoding])`: the empty
string when the map has no such entry. -/
def Payload.encoding (p : Payload) : String :=
  (p.Metadata.lookup MetadataEncoding).getD ""

/-- A Go `map[string]interface{}` over values of type `V`. -/
def Record (V : Type) : Type := String → Option V

/-- The map assignment `m[k] = v`. -/
def Record.set {V : Type} (m : Record V) (k : String) (v : V) : Record V :=
  fun k' => if k' = k then some v else m k'

/-- One call to a collaborator, with what it returned. -/
inductive Event (V : Type) where
  | getKey (keyID : String) (key : String)
  | insertRecord (collection : String) (record : Record V) (failure : Option Error)
  | retrieveRecord (collection : String) (id : String) (found : Except Error (Record V))
  | encrypt (plain : String) (key : String) (out : Except Error String)
  | decrypt (cipher : String) (key : String) (out : Except Error String)
  | stageInput (stage : String) (input : List (Option Payload))

/-- The state a call runs in: the content store, the random source, and the
record of collaborator calls made so far. -/
structure World (σ ρ V : Type) where
  db : σ
  rng : ρ
  trace : List (Event V)

/-- Append one event to the trace. -/
def World.log {σ ρ V : Type} (w : World σ ρ V) (ev : Event V) : World σ ρ V :=
  { w with trace := w.trace ++ [ev] }

/-- The content store client `*mongo.Controller`.  Its implementation is not
among the sources, so its two methods are parameters: `InsertRecord` reports
success or failure, `RetrieveRecord` returns the stored object or an error. -/
structure Controller (σ V : Type) where
  InsertRecord : σ → String → Record V → Option Error × σ
  RetrieveRecord : σ → String → String → Except Error (Record V) × σ

/-- The remaining collaborators of the codec.

* `newUUID` is `uuid.New().String()`.
* `jsonUnmarshal` is `json.Unmarshal(data, &m)` for `m` a
  `map[string]interface{}`: an error, or the decoded map; the JSON value
  `null` is accepted without error and sets the map to nil, which is
  `Except.ok none`.
* `jsonMarshal` is `json.Marshal`.
* `strValue` turns a Go string into an `interface{}` value.
* `encrypt` and `decrypt` are the cipher pair of this package; `encrypt` may
  draw from the random source. -/
structure Deps (ρ V : Type) where
  newUUID : ρ → String × ρ
  jsonUnmarshal : String → Except Error (Option (Record V))
  jsonMarshal : Record V → Except Error String
  strValue : String → V
  encrypt : ρ → String → String → Except Error String × ρ
  decrypt : String → String → Except Error String

/-- Codec implements PayloadCodec using AES Crypt (source lines 40-43). -/
structure Codec (σ V : Type) where
  KeyID : String
  Db : Controller σ V

/-- What one pass through a loop body yields: the entry written to
`result[i]`, an early `return payloads, err`, or a panic. -/
inductive Step where
  | ok (q : Payload)
  | fail (err : Error)
  | panic (msg : String)

/-- What a call of `Encode` or `Decode` yields. -/
inductive Outcome where
  | ret (payloads : List (Option Payload)) (err : Option Error)
  | panic (msg : String)

/-- The panic raised by reading a field through a nil `*Payload`. -/
def nilDereference : String := "invalid memory address or nil pointer dereference"

/-- The panic raised by `m[k] = v` on a nil map. -/
def nilMapAssignment : String := "assignment to entry in nil map"

/-- Source lines 83-87: the key is hard coded, whatever the key id. -/
def Codec.getKey {σ V : Type} (_e : Codec σ V) (_keyID : String) : String :=
  "test-key-test-key-test-key-test!"

/-- The shape shared by both methods: `for i, p := range payloads` with one
body, writing `result[i]` on success, returning `payloads, err` on failure, and
`return result, nil` after the last item. -/
def rangeLoop {W : Type} (body : Option Payload → W → Step × W)
    (payloads : List (Option Payload)) :
    Nat → List (Option Payload) → List (Option Payload) → W → Outcome × W
  | _, [], result, w => (Outcome.ret result none, w)
  | i, p :: rest, result, w =>
    match body p w with
    | (Step.ok q, w1) => rangeLoop body payloads (i + 1) rest (result.set i (some q)) w1
    | (Step.fail err, w1) => (Outcome.ret payloads (some err), w1)
    | (Step.panic msg, w1) => (Outcome.panic msg, w1)

/-- The body of the loop of `Encode`, source lines 112-140. -/
def encodeItem {σ ρ V : Type} (e : Codec σ V) (d : Deps ρ V)
    (p : Option Payload) (w : World σ ρ V) : Step × World σ ρ V :=
  -- uuidToCodex := uuid.New()
  match d.newUUID w.rng with
  | (uuidToCodex, rng1) =>
    let w1 : World σ ρ V := { w with rng := rng1 }
    match p with
    | none => (Step.panic nilDereference, w1)
    | some p =>
      -- err := json.Unmarshal(p.Data, &dataToInsert)
      match d.jsonUnmarshal p.Data with
      | Except.error err => (Step.fail err, w1)
      | Except.ok dataToInsert =>
        -- key := e.getKey(e.KeyID)
        let key := e.getKey e.KeyID
        let w2 := w1.log (Event.getKey e.KeyID key)
        -- dataToInsert["_id"] = uuidToCodex.String()
        match dataToInsert with
        | none => (Step.panic nilMapAssignment, w2)
        | some m =>
          let record := Record.set m "_id" (d.strValue uuidToCodex)
          -- e.Db.InsertRecord("codex-data", dataToInsert): the result is dropped
          match e.Db.InsertRecord w2.db codexCollection record with
          | (failure, db1) =>
            let w3 : World σ ρ V :=
              ({ w2 with db := db1 } : World σ ρ V).log
                (Event.insertRecord codexCollection record failure)
            -- b, err := encrypt([]byte(uuidToCodex.String()), key)
            match d.encrypt w3.rng uuidToCodex key with
            | (out, rng2) =>
              let w4 : World σ ρ V :=
                ({ w3 with rng := rng2 } : World σ ρ V).log
                  (Event.encrypt uuidToCodex key out)
              match out with
              | Except.error err => (Step.fail err, w4)
              | Except.ok b =>
                (Step.ok
                  { Metadata := [(MetadataEncoding, MetadataEncodingEncrypted),
                                 (MetadataEncryptionKeyID, e.KeyID)],
                    Data := b }, w4)

/-- Encode implements converter.PayloadCodec.Encode (source lines 109-144). -/
def Codec.Encode {σ ρ V : Type} (e : Codec σ V) (d : Deps ρ V)
    (payloads : List (Option Payload)) (w : World σ ρ V) : Outcome × World σ ρ V :=
  rangeLoop (encodeItem e d) payloads 0 payloads (List.replicate payloads.length none) w

/-- The body of the loop of `Decode`, source lines 150-186. -/
def decodeItem {σ ρ V : Type} (e : Codec σ V) (d : Deps ρ V)
    (p : Option Payload) (w : World σ ρ V) : Step × World σ ρ V :=
  match p with
  | none => (Step.panic nilDereference, w)
  | some p =>
    -- Only if it's encrypted
    if p.encoding ≠ MetadataEncodingEncrypted then
      (Step.ok p, w)
    else
      match p.Metadata.lookup MetadataEncryptionKeyID with
      | none => (Step.fail "no encryption key id", w)
      | some keyID =>
        let key := e.getKey keyID
        let w1 := w.log (Event.getKey keyID key)
        -- b, err := decrypt(p.Data, key)
        let out := d.decrypt p.Data key
        let w2 := w1.log (Event.decrypt p.Data key out)
        match out with
        | Except.error err => (Step.fail err, w2)
        | Except.ok b =>
          -- result[i] = &commonpb.Payload{} (line 168) is overwritten at line 181,
          -- or dropped with the whole of result by an early return
          -- storedObj, err := e.Db.RetrieveRecord("codex-data", string(b))
          match e.Db.RetrieveRecord w2.db codexCollection b with
          | (found, db1) =>
            let w3 : World σ ρ V :=
              ({ w2 with db := db1 } : World σ ρ V).log
                (Event.retrieveRecord codexCollection b found)
            match found with
            | Except.error err => (Step.fail err, w3)
            | Except.ok storedObj =>
              -- payload, err := json.Marshal(&storedObj)
              match d.jsonMarshal storedObj with
              | Except.error err => (Step.fail err, w3)
              | Except.ok payload =>
                (Step.ok
                  { Metadata := [(MetadataEncoding, MetadataEncodingJSON)],
                    Data := payload }, w3)

/-- Decode implements converter.PayloadCodec.Decode (source lines 147-190). -/
def Codec.Decode {σ ρ V : Type} (e : Codec σ V) (d : Deps ρ V)
    (payloads : List (Option Payload)) (w : World σ ρ V) : Outcome × World σ ρ V :=
  rangeLoop (decodeItem e d) payloads 0 payloads (List.replicate payloads.length none) w

/-- The result of running the items of a batch in order through one loop
body: the entries produced, or the first failure. -/
inductive Run where
  | ok (qs : List Payload)
  | fail (err : Error)
  | panic (msg : String)

/-- The items of a batch taken in order through one loop body, stopping at the
first item that does not produce an entry.  This is the list-level reading of
`rangeLoop`, to which `rangeLoop_eq_runItems` relates it. -/
def runItems {W : Type} (body : Option Payload → W → Step × W) :
    List (Option Payload) → W → Run × W
  | [], w => (Run.ok [], w)
  | p :: rest, w =>
    match body p w with
    | (Step.ok q, w1) =>
      match runItems body rest w1 with
      | (Run.ok qs, w2) => (Run.ok (q :: qs), w2)
      | (Run.fail err, w2) => (Run.fail err, w2)
      | (Run.panic msg, w2) => (Run.panic msg, w2)
    | (Step.fail err, w1) => (Run.fail err, w1)
    | (Step.panic msg, w1) => (Run.panic msg, w1)

/-- What the method returns for a given run of its items. -/
def Run.toOutcome (payloads : List (Option Payload)) : Run → Outcome
  | Run.ok qs => Outcome.ret (qs.map some) none
  | Run.fail err => Outcome.ret payloads (some err)
  | Run.panic msg => Outcome.panic msg

/-! ## The codec chain -/

/-- The interface `converter.PayloadCodec`. -/
structure PayloadCodec (W : Type) where
  Encode : List (Option Payload) → W → Outcome × W
  Decode : List (Option Payload) → W → Outcome × W

/-- A `*Codec` seen through the `converter.PayloadCodec` interface. -/
def Codec.toPayloadCodec {σ ρ V : Type} (e : Codec σ V) (d : Deps ρ V) :
    PayloadCodec (World σ ρ V) where
  Encode := e.Encode d
  Decode := e.Decode d

/-- DataConverterOptions (source lines 32-37). -/
structure DataConverterOptions (σ V : Type) where
  KeyID : String
  Compress : Bool
  Db : Controller σ V

/-- DataConverter (source lines 25-30), reduced to what the codec chain
depends on: the codec list handed to `converter.NewCodecDataConverter` and the
options.  The parent converter plays no part in the chain. -/
structure DataConverter (σ ρ V : Type) where
  codecs : List (PayloadCodec (World σ ρ V))
  options : DataConverterOptions σ V

/-- NewEncryptionDataConverter (source lines 90-106).  The zlib codec of the
Temporal SDK, `converter.NewZlibCodec`, is a parameter. -/
def NewEncryptionDataConverter {σ ρ V : Type} (d : Deps ρ V)
    (zlibCodec : PayloadCodec (World σ ρ V)) (options : DataConverterOptions σ V) :
    DataConverter σ ρ V :=
  let codecs : List (PayloadCodec (World σ ρ V)) :=
    [Codec.toPayloadCodec { KeyID := options.KeyID, Db := options.Db } d]
  -- Enable compression if requested.
  let codecs := if options.Compress then codecs ++ [zlibCodec] else codecs
  { codecs := codecs, options := options }

/-- The outbound path of the host's codec data converter
(`converter.NewCodecDataConverter` of the Temporal SDK, not part of this
repository), in the order the source relies on at line 96: "codecs are applied
last -> first".  A codec that does not return a nil error ends the chain with
its own outcome. -/
def chainEncode {W : Type} : List (PayloadCodec W) → List (Option Payload) → W → Outcome × W
  | [], payloads, w => (Outcome.ret payloads none, w)
  | c :: cs, payloads, w =>
    match chainEncode cs payloads w with
    | (Outcome.ret out none, w1) => c.Encode out w1
    | (Outcome.ret out (some err), w1) => (Outcome.ret out (some err), w1)
    | (Outcome.panic msg, w1) => (Outcome.panic msg, w1)

/-- The inbound path of the host's codec data converter: the codecs are applied
in list order, undoing `chainEncode`. -/
def chainDecode {W : Type} : List (PayloadCodec W) → List (Option Payload) → W → Outcome × W
  | [], payloads, w => (Outcome.ret payloads none, w)
  | c :: cs, payloads, w =>
    match c.Decode payloads w with
    | (Outcome.ret out none, w1) => chainDecode cs out w1
    | (Outcome.ret out (some err), w1) => (Outcome.ret out (some err), w1)
    | (Outcome.panic msg, w1) => (Outcome.panic msg, w1)

/-! ## Vocabulary of the statements -/

/-- What a caller may use of an outcome under the Go convention: the payloads
when the error is nil, otherwise the error alone (the payloads returned beside
a non-nil error are the input batch). -/
def Outcome.forCaller : Outcome → Outcome
  | Outcome.ret out none => Outcome.ret out none
  | Outcome.ret _ (some err) => Outcome.ret [] (some err)
  | Outcome.panic msg => Outcome.panic msg

/-- The payload with every "encryption-key-id" metadata entry set to `v`; a
payload without such an entry is unchanged. -/
def Payload.withKeyID (p : Payload) (v : String) : Payload :=
  { p with
    Metadata := p.Metadata.map
      (fun kv => if kv.1 = MetadataEncryptionKeyID then (kv.1, v) else kv) }

/-- A batch in which each payload marked "binary/encrypted" has its key id
entry rewritten to `g p`. -/
def rekey (g : Payload → String) (payloads : List (Option Payload)) :
    List (Option Payload) :=
  payloads.map (Option.map
    (fun p => if p.encoding = MetadataEncodingEncrypted then p.withKeyID (g p) else p))

/-- The batch with the key id entries of all its payloads, encrypted or not,
set to `v`. -/
def rekeyAll (v : String) (payloads : List (Option Payload)) : List (Option Payload) :=
  payloads.map (Option.map (fun p => p.withKeyID v))

/-- The outcome with a function applied to every payload it returns. -/
def Outcome.mapPayloads (f : Payload → Payload) : Outcome → Outcome
  | Outcome.ret out err => Outcome.ret (out.map (Option.map f)) err
  | Outcome.panic msg => Outcome.panic msg

/-- A loop-body result with a function applied to the entry it produced. -/
def Step.map (f : Payload → Payload) : Step → Step
  | Step.ok q => Step.ok (f q)
  | Step.fail err => Step.fail err
  | Step.panic msg => Step.panic msg

/-- A run with a function applied to the entries it produced. -/
def Run.map (f : Payload → Payload) : Run → Run
  | Run.ok qs => Run.ok (qs.map f)
  | Run.fail err => Run.fail err
  | Run.panic msg => Run.panic msg

/-- What `Encode` did for one payload: the parsed content, the token, the
ciphertext of the token, and what the store reported for the insert. -/
structure Tokenized (V : Type) where
  content : Record V
  token : String
  cipher : String
  failure : Option Error

/-- The payload `Encode` emits for one item (source lines 134-140). -/
def Tokenized.payload {V : Type} (keyID : String) (t : Tokenized V) : Payload :=
  { Metadata := [(MetadataEncoding, MetadataEncodingEncrypted),
                 (MetadataEncryptionKeyID, keyID)],
    Data := t.cipher }

/-- The collaborator calls `Encode` makes for one item, in order. -/
def Tokenized.events {σ V : Type} (e : Codec σ V) (strValue : String → V)
    (t : Tokenized V) : List (Event V) :=
  [Event.getKey e.KeyID (e.getKey e.KeyID),
   Event.insertRecord codexCollection (Record.set t.content "_id" (strValue t.token)) t.failure,
   Event.encrypt t.token (e.getKey e.KeyID) (Except.ok t.cipher)]

/-- The assumption "retrieve returns exactly the record that was inserted under
that id": after an insert of a record whose "_id" field is `id`, retrieving
`id` from the same collection yields that record. -/
def StoreKeeps {σ V : Type} (db : Controller σ V) (strValue : String → V) : Prop :=
  ∀ (s : σ) (collection id : String) (r : Record V),
    r "_id" = some (strValue id) →
    (db.RetrieveRecord (db.InsertRecord s collection r).2 collection id).1 = Except.ok r

/-- The assumption `decrypt(encrypt(x, k), k) = x`. -/
def CipherInverts {ρ V : Type} (d : Deps ρ V) : Prop :=
  ∀ (g : ρ) (x k : String),
    ∃ c, (d.encrypt g x k).1 = Except.ok c ∧ d.decrypt c k = Except.ok x

/-! ## A small concrete world

Stand-ins for the collaborators, used to run the codec on concrete batches. -/

/-- Modelled from the spec: the Content Store Client (package `mongo`, absent
from the sources) as an in-memory table.  Insert files the record under its
"_id" field in the named collection; retrieve returns the record filed under
the id, or fails with "not found". -/
def memStore : Controller (List (String × String × Record String)) String where
  InsertRecord s collection r :=
    match r "_id" with
    | some id => (none, (collection, id, r) :: s)
    | none => (some "record has no _id", s)
  RetrieveRecord s collection id :=
    match s.find? (fun x => x.1 == collection && x.2.1 == id) with
    | some x => (Except.ok x.2.2, s)
    | none => (Except.error "not found", s)

/-- Modelled from the spec: a Content Store that is unreachable, so that every
insert and every retrieve fails. -/
def downStore : Controller (List (String × String × Record String)) String where
  InsertRecord s _ _ := (some "store unreachable", s)
  RetrieveRecord s _ _ := (Except.error "store unreachable", s)

/-- The structured content of the payload `{"user":"alice"}`. -/
def aliceRecord : Record String :=
  Record.set (fun _ => none) "user" "alice"

/-- The payload `{"user":"alice"}`, with the metadata of a plain JSON payload. -/
def alicePayload : Payload :=
  { Metadata := [(MetadataEncoding, MetadataEncodingJSON)],
    Data := "\x7b\"user\":\"alice\"\x7d" }

/-- The payload whose data is the JSON value `null`. -/
def nullPayload : Payload :=
  { Metadata := [(MetadataEncoding, MetadataEncodingJSON)], Data := "null" }

/-- A stand-in for `uuid.New().String()`: the n-th draw. -/
def demoUUID : Nat → String
  | 0 => "uuid-0"
  | 1 => "uuid-1"
  | _ => "uuid-n"

/-- A stand-in for `json.Unmarshal` into a map, defined on the few documents the
examples use: objects with a "user" field and possibly an "_id" field decode to
the corresponding map, `null` sets the map to nil without error, anything else
is a syntax error. -/
def demoUnmarshal (data : String) : Except Error (Option (Record String)) :=
  if data = "null" then Except.ok none
  else if data = "\x7b\"user\":\"alice\"\x7d" then Except.ok (some aliceRecord)
  else if data = "\x7b\"_id\":\"uuid-0\",\"user\":\"alice\"\x7d" then
    Except.ok (some (Record.set aliceRecord "_id" "uuid-0"))
  else Except.error "invalid character looking for beginning of value"

/-- A stand-in for `json.Marshal` of a map with a "user" field and possibly an
"_id" field (keys in sorted order, as `encoding/json` writes them). -/
def demoMarshal (r : Record String) : Except Error String :=
  match r "_id", r "user" with
  | some id, some u =>
    Except.ok ("\x7b\"_id\":\"" ++ id ++ "\",\"user\":\"" ++ u ++ "\"\x7d")
  | none, some u => Except.ok ("\x7b\"user\":\"" ++ u ++ "\"\x7d")
  | _, none => Except.error "json: unsupported value"

/-- Stand-ins for the collaborators: a counter as random source, the two JSON
stand-ins, and a keyless toy cipher that reverses the text. -/
def demoDeps : Deps Nat String where
  newUUID n := (demoUUID n, n + 1)
  jsonUnmarshal := demoUnmarshal
  jsonMarshal := demoMarshal
  strValue := id
  encrypt n plain _ := (Except.ok (String.mk plain.data.reverse), n)
  decrypt cipher _ := Except.ok (String.mk cipher.data.reverse)

/-- A codec with key id "k1" over the in-memory store. -/
def demoCodec : Codec (List (String × String × Record String)) String :=
  { KeyID := "k1", Db := memStore }

/-- A codec with key id "k1" whose store is unreachable. -/
def downCodec : Codec (List (String × String × Record String)) String :=
  { KeyID := "k1", Db := downStore }

/-- The empty store, a fresh random source, and no call made yet. -/
def demoWorld : World (List (String × String × Record String)) Nat String :=
  { db := [], rng := 0, trace := [] }

/-- A stand-in for the zlib codec that records, in the trace, the batch each of
its two directions is handed, and wraps or leaves the data. -/
def recordingZlib {σ ρ V : Type} : PayloadCodec (World σ ρ V) where
  Encode payloads w :=
    (Outcome.ret
      (payloads.map (Option.map (fun p =>
        { Metadata := [(MetadataEncoding, "binary/zlib")],
          Data := "zlib(" ++ p.Data ++ ")" })))
      none,
     w.log (Event.stageInput "zlib.Encode" payloads))
  Decode payloads w :=
    (Outcome.ret payloads none, w.log (Event.stageInput "zlib.Decode" payloads))

/-- The payload `Encode` emits for `alicePayload` in `demoWorld`: the toy
ciphertext of the token "uuid-0" under key id "k1". -/
def tokenPayload : Payload :=
  { Metadata := [(MetadataEncoding, MetadataEncodingEncrypted),
                 (MetadataEncryptionKeyID, "k1")],
    Data := "0-diuu" }

/-- The payload `Decode` restores from `tokenPayload`. -/
def restoredPayload : Payload :=
  { Metadata := [(MetadataEncoding, MetadataEncodingJSON)],
    Data := "\x7b\"_id\":\"uuid-0\",\"user\":\"alice\"\x7d" }

/-- A payload marked "binary/encrypted" that carries no key id. -/
def unkeyedPayload : Payload :=
  { Metadata := [(MetadataEncoding, MetadataEncodingEncrypted)], Data := "0-diuu" }

/-- The world after `alicePayload` was encoded in `demoWorld`. -/
def storedWorld : World (List (String × String × Record String)) Nat String :=
  (demoCodec.Encode demoDeps [some alicePayload] demoWorld).2

/-- The chain built for key id "k1" over the in-memory store, with
compression switched on. -/
def demoConverter : DataConverter (List (String × String × Record String)) Nat String :=
  NewEncryptionDataConverter demoDeps recordingZlib
    { KeyID := "k1", Compress := true, Db := memStore }

/-! ## The loop -/

theorem set_pending (pre : List Payload) (q : Payload) (n : Nat) :
    (pre.map some ++ List.replicate (n + 1) none).set pre.length (some q)
      = (pre ++ [q]).map some ++ List.replicate n none := by
  induction pre with
  | nil => simp [List.replicate_succ]
  | cons a pre ih => simpa using ih

theorem rangeLoop_eq_runItems_aux {W : Type} (body : Option Payload → W → Step × W)
    (payloads rest : List (Option Payload)) :
    ∀ (pre : List Payload) (w : W),
      rangeLoop body payloads pre.length rest
          (pre.map some ++ List.replicate rest.length none) w
        = (match (runItems body rest w).1 with
            | Run.ok qs => Outcome.ret ((pre ++ qs).map some) none
            | Run.fail err => Outcome.ret payloads (some err)
            | Run.panic msg => Outcome.panic msg,
           (runItems body rest w).2) := by
  induction rest with
  | nil => intro pre w; simp [rangeLoop, runItems]
  | cons p rest ih =>
    intro pre w
    rcases hb : body p w with ⟨st, w1⟩
    cases st with
    | ok q =>
      have h := ih (pre ++ [q]) w1
      simp only [List.length_append, List.length_singleton] at h
      simp only [rangeLoop, runItems, hb, List.length_cons, set_pending, h]
      rcases hr : runItems body rest w1 with ⟨r, w2⟩
      cases r <;> simp
    | fail err => simp [rangeLoop, runItems, hb]
    | panic msg => simp [rangeLoop, runItems, hb]

theorem rangeLoop_eq_runItems {W : Type} (body : Option Payload → W → Step × W)
    (payloads : List (Option Payload)) (w : W) :
    rangeLoop body payloads 0 payloads (List.replicate payloads.length none) w
      = ((runItems body payloads w).1.toOutcome payloads, (runItems body payloads w).2) := by
  have h := rangeLoop_eq_runItems_aux body payloads payloads [] w
  simp only [List.length_nil, List.map_nil, List.nil_append] at h
  rw [h]
  cases (runItems body payloads w).1 <;> rfl

theorem Encode_eq {σ ρ V : Type} (e : Codec σ V) (d : Deps ρ V)
    (payloads : List (Option Payload)) (w : World σ ρ V) :
    e.Encode d payloads w
      = ((runItems (encodeItem e d) payloads w).1.toOutcome payloads,
         (runItems (encodeItem e d) payloads w).2) :=
  rangeLoop_eq_runItems _ _ _

theorem Decode_eq {σ ρ V : Type} (e : Codec σ V) (d : Deps ρ V)
    (payloads : List (Option Payload)) (w : World σ ρ V) :
    e.Decode d payloads w
      = ((runItems (decodeItem e d) payloads w).1.toOutcome payloads,
         (runItems (decodeItem e d) payloads w).2) :=
  rangeLoop_eq_runItems _ _ _

/-! ## Running a list of items -/

theorem runItems_cons_ok {W : Type} (body : Option Payload → W → Step × W)
    (p : Option Payload) (rest : List (Option Payload)) (w w1 : W) (q : Payload)
    (hb : body p w = (Step.ok q, w1)) :
    runItems body (p :: rest) w
      = (match (runItems body rest w1).1 with
          | Run.ok qs => Run.ok (q :: qs)
          | Run.fail err => Run.fail err
          | Run.panic msg => Run.panic msg,
         (runItems body rest w1).2) := by
  simp only [runItems, hb]
  rcases runItems body rest w1 with ⟨r, w2⟩
  cases r <;> rfl

theorem runItems_cons_inv {W : Type} (body : Option Payload → W → Step × W)
    (p : Option Payload) (rest : List (Option Payload)) (w w2 : W) (qs : List Payload)
    (h : runItems body (p :: rest) w = (Run.ok qs, w2)) :
    ∃ q w1 qs1, body p w = (Step.ok q, w1) ∧ runItems body rest w1 = (Run.ok qs1, w2)
      ∧ qs = q :: qs1 := by
  rcases hb : body p w with ⟨st, w1⟩
  cases st with
  | ok q =>
    rw [runItems_cons_ok body p rest w w1 q hb] at h
    rcases hr : runItems body rest w1 with ⟨r, w3⟩
    rw [hr] at h
    cases r with
    | ok qs1 =>
      simp only [Prod.mk.injEq, Run.ok.injEq] at h
      exact ⟨q, w1, qs1, rfl, by rw [hr, h.2], h.1.symm⟩
    | fail err => simp at h
    | panic msg => simp at h
  | fail err => simp [runItems, hb] at h
  | panic msg => simp [runItems, hb] at h

theorem runItems_append_ok {W : Type} (body : Option Payload → W → Step × W)
    (pre : List (Option Payload)) :
    ∀ (post : List (Option Payload)) (w w1 : W) (qs : List Payload),
      runItems body pre w = (Run.ok qs, w1) →
      runItems body (pre ++ post) w
        = (match (runItems body post w1).1 with
            | Run.ok qs1 => Run.ok (qs ++ qs1)
            | Run.fail err => Run.fail err
            | Run.panic msg => Run.panic msg,
           (runItems body post w1).2) := by
  induction pre with
  | nil =>
    intro post w w1 qs h
    simp only [runItems, Prod.mk.injEq, Run.ok.injEq] at h
    rcases h with ⟨h1, h2⟩
    subst h1; subst h2
    rcases hr : runItems body post w with ⟨r, w2⟩
    cases r <;> simp [hr]
  | cons p pre ih =>
    intro post w w1 qs h
    obtain ⟨q, w0, qs0, hb, hr, hq⟩ := runItems_cons_inv body p pre w w1 qs h
    subst hq
    rw [List.cons_append, runItems_cons_ok body p (pre ++ post) w w0 q hb, ih post w0 w1 qs0 hr]
    rcases runItems body post w1 with ⟨r, w2⟩
    cases r <;> rfl

theorem runItems_length {W : Type} (body : Option Payload → W → Step × W)
    (ps : List (Option Payload)) :
    ∀ (w w1 : W) (qs : List Payload),
      runItems body ps w = (Run.ok qs, w1) → qs.length = ps.length := by
  induction ps with
  | nil =>
    intro w w1 qs h
    simp only [runItems, Prod.mk.injEq, Run.ok.injEq] at h
    simp [← h.1]
  | cons p ps ih =>
    intro w w1 qs h
    obtain ⟨q, w0, qs0, _, hr, hq⟩ := runItems_cons_inv body p ps w w1 qs h
    subst hq
    simp [ih w0 w1 qs0 hr]

theorem runItems_entry {W : Type} (body : Option Payload → W → Step × W)
    (ps : List (Option Payload)) :
    ∀ (w w1 : W) (qs : List Payload),
      runItems body ps w = (Run.ok qs, w1) →
      ∀ (i : Nat) (p : Option Payload), ps[i]? = some p →
        ∃ q, qs[i]? = some q ∧
          (body p (runItems body (ps.take i) w).2).1 = Step.ok q := by
  induction ps with
  | nil => intro w w1 qs _ i p hp; simp at hp
  | cons p0 ps ih =>
    intro w w1 qs h i p hp
    obtain ⟨q, w0, qs0, hb, hr, hq⟩ := runItems_cons_inv body p0 ps w w1 qs h
    subst hq
    cases i with
    | zero =>
      simp only [List.getElem?_cons_zero, Option.some.injEq] at hp
      subst hp
      exact ⟨q, by simp, by simp [runItems, hb]⟩
    | succ i =>
      simp only [List.getElem?_cons_succ] at hp
      obtain ⟨q1, hq1, hb1⟩ := ih w0 w1 qs0 hr i p hp
      refine ⟨q1, by simpa using hq1, ?_⟩
      rw [List.take_succ_cons, runItems_cons_ok body p0 (ps.take i) w w0 q hb]
      exact hb1

/-! ## The body of `Decode` -/

theorem decodeItem_plain {σ ρ V : Type} (e : Codec σ V) (d : Deps ρ V) (p : Payload)
    (w : World σ ρ V) (h : p.encoding ≠ MetadataEncodingEncrypted) :
    decodeItem e d (some p) w = (Step.ok p, w) := by
  simp [decodeItem, h]

theorem decodeItem_noKeyID {σ ρ V : Type} (e : Codec σ V) (d : Deps ρ V) (p : Payload)
    (w : World σ ρ V) (h : p.encoding = MetadataEncodingEncrypted)
    (hk : p.Metadata.lookup MetadataEncryptionKeyID = none) :
    decodeItem e d (some p) w = (Step.fail "no encryption key id", w) := by
  simp [decodeItem, h, hk]

theorem runItems_plain {σ ρ V : Type} (e : Codec σ V) (d : Deps ρ V)
    (ps : List Payload) (w : World σ ρ V)
    (h : ∀ p ∈ ps, p.encoding ≠ MetadataEncodingEncrypted) :
    runItems (decodeItem e d) (ps.map some) w = (Run.ok ps, w) := by
  induction ps with
  | nil => rfl
  | cons p ps ih =>
    have hp : p.encoding ≠ MetadataEncodingEncrypted := h p (List.mem_cons_self _ _)
    have hps : ∀ p ∈ ps, p.encoding ≠ MetadataEncodingEncrypted :=
      fun x hx => h x (List.mem_cons_of_mem _ hx)
    rw [List.map_cons, runItems_cons_ok _ _ _ w w p (decodeItem_plain e d p w hp), ih hps]

theorem ret_ok_inv (payloads out : List (Option Payload)) (r : Run)
    (h : r.toOutcome payloads = Outcome.ret out none) :
    ∃ qs, r = Run.ok qs ∧ out = qs.map some := by
  cases r with
  | ok qs =>
    simp only [Run.toOutcome, Outcome.ret.injEq, and_true] at h
    exact ⟨qs, rfl, h.symm⟩
  | fail err => simp [Run.toOutcome] at h
  | panic msg => simp [Run.toOutcome] at h

/-- When a method returns a nil error, its items ran to the end and the result
is the list of their entries. -/
theorem loop_ok_inv {W : Type} (body : Option Payload → W → Step × W)
    (ps out : List (Option Payload)) (w w1 : W)
    (h : rangeLoop body ps 0 ps (List.replicate ps.length none) w = (Outcome.ret out none, w1)) :
    ∃ qs, runItems body ps w = (Run.ok qs, w1) ∧ out = qs.map some := by
  rw [rangeLoop_eq_runItems] at h
  simp only [Prod.mk.injEq] at h
  obtain ⟨qs, hq, ho⟩ := ret_ok_inv ps out _ h.1
  exact ⟨qs, Prod.ext hq h.2, ho⟩

/-! ## Claims about `Decode` -/

/-- C7. Plaintext traffic is never blocked: on a batch in which no payload
carries the marker "binary/encrypted", and whatever the store, the key resolver
and the cipher do, `Decode` returns the input payloads unchanged and in order
with a nil error, and leaves the world as it found it: the trace is the same, so
neither the store nor the key resolver nor `decrypt` was called. -/
theorem Decode_plaintext_untouched {σ ρ V : Type} (e : Codec σ V) (d : Deps ρ V)
    (ps : List Payload) (w : World σ ρ V)
    (h : ∀ p ∈ ps, p.encoding ≠ MetadataEncodingEncrypted) :
    e.Decode d (ps.map some) w = (Outcome.ret (ps.map some) none, w) := by
  rw [Decode_eq, runItems_plain e d ps w h]
  rfl

/-- C2. Pass-through: when `Decode` returns a nil error, a payload whose
encoding metadata is not "binary/encrypted" (or is absent) is found at the same
index of the result, the very same payload: same data, same metadata. -/
theorem Decode_passThrough {σ ρ V : Type} (e : Codec σ V) (d : Deps ρ V)
    (ps out : List (Option Payload)) (w w1 : World σ ρ V)
    (h : e.Decode d ps w = (Outcome.ret out none, w1))
    (i : Nat) (p : Payload) (hi : ps[i]? = some (some p))
    (hp : p.encoding ≠ MetadataEncodingEncrypted) :
    out[i]? = some (some p) := by
  obtain ⟨qs, hr, ho⟩ := loop_ok_inv _ ps out w w1 h
  obtain ⟨q, hq, hb⟩ := runItems_entry _ ps w w1 qs hr i (some p) hi
  rw [decodeItem_plain e d p _ hp] at hb
  simp only [Step.ok.injEq] at hb
  subst hb
  rw [ho, List.getElem?_map, hq]
  rfl

/-- C6. Missing key id: when the payloads before it decode without error, a
payload marked "binary/encrypted" that has no "encryption-key-id" entry makes
`Decode` return the error "no encryption key id" beside the input batch.  The
world is the one the earlier payloads left, so no `decrypt` and no store
retrieve was made for that payload. -/
theorem Decode_missing_key_id {σ ρ V : Type} (e : Codec σ V) (d : Deps ρ V)
    (pre post out : List (Option Payload)) (p : Payload) (w w1 : World σ ρ V)
    (hpre : e.Decode d pre w = (Outcome.ret out none, w1))
    (henc : p.encoding = MetadataEncodingEncrypted)
    (hkey : p.Metadata.lookup MetadataEncryptionKeyID = none) :
    e.Decode d (pre ++ some p :: post) w
      = (Outcome.ret (pre ++ some p :: post) (some "no encryption key id"), w1) := by
  obtain ⟨qs, hr, _⟩ := loop_ok_inv _ pre out w w1 hpre
  rw [Decode_eq, runItems_append_ok _ pre (some p :: post) w w1 qs hr]
  simp [runItems, decodeItem_noKeyID e d p w1 henc hkey, Run.toOutcome]

/-! ## Ordering and length, for both methods -/

/-- C9. Ordering and length: when `Encode` or `Decode` (the `method`, with its
loop `body`) returns a nil error on a batch of N entries, the result has N
entries; entry i is not nil and is what the body produces for input i, run in
the world the first i items left behind. -/
theorem result_length_and_order {σ ρ V : Type} (e : Codec σ V) (d : Deps ρ V)
    (method : List (Option Payload) → World σ ρ V → Outcome × World σ ρ V)
    (body : Option Payload → World σ ρ V → Step × World σ ρ V)
    (hm : (method, body) = (e.Encode d, encodeItem e d)
        ∨ (method, body) = (e.Decode d, decodeItem e d))
    (ps out : List (Option Payload)) (w w1 : World σ ρ V)
    (h : method ps w = (Outcome.ret out none, w1)) :
    out.length = ps.length ∧
    ∀ (i : Nat) (p : Option Payload), ps[i]? = some p →
      ∃ q, out[i]? = some (some q) ∧ (body p (method (ps.take i) w).2).1 = Step.ok q := by
  have key : ∀ ps1 w0, method ps1 w0
      = ((runItems body ps1 w0).1.toOutcome ps1, (runItems body ps1 w0).2) := by
    intro ps1 w0
    rcases hm with hm | hm <;>
      (simp only [Prod.mk.injEq] at hm; rw [hm.1, hm.2])
    · exact Encode_eq e d ps1 w0
    · exact Decode_eq e d ps1 w0
  rw [key] at h
  simp only [Prod.mk.injEq] at h
  obtain ⟨qs, hq, ho⟩ := ret_ok_inv ps out _ h.1
  have hr : runItems body ps w = (Run.ok qs, w1) := Prod.ext hq h.2
  refine ⟨by rw [ho, List.length_map, runItems_length body ps w w1 qs hr], ?_⟩
  intro i p hp
  obtain ⟨q, hq1, hb⟩ := runItems_entry body ps w w1 qs hr i p hp
  refine ⟨q, by rw [ho, List.getElem?_map, hq1]; rfl, ?_⟩
  rw [key]
  exact hb

/-! ## Key resolution -/

theorem lookup_cons_ite (k x y : String) (rest : List (String × String)) :
    List.lookup k ((x, y) :: rest) = if k = x then some y else List.lookup k rest := by
  by_cases h : k = x
  · simp [List.lookup, h]
  · have hb : (k == x) = false := by simpa using h
    simp [List.lookup, h, hb]

theorem lookup_withKeyID (v k : String) (m : List (String × String)) :
    (m.map (fun kv => if kv.1 = MetadataEncryptionKeyID then (kv.1, v) else kv)).lookup k
      = if k = MetadataEncryptionKeyID then (m.lookup k).map (fun _ => v) else m.lookup k := by
  induction m with
  | nil => simp
  | cons kv m ih =>
    rcases kv with ⟨a, b⟩
    rw [List.map_cons, lookup_cons_ite k a b m]
    by_cases ha : a = MetadataEncryptionKeyID
    · rw [if_pos (show (a, b).1 = MetadataEncryptionKeyID from ha), lookup_cons_ite, ih]
      by_cases hk : k = MetadataEncryptionKeyID
      · simp [hk, ha]
      · have hka : k ≠ a := fun h => hk (h.trans ha)
        simp [hk, hka]
    · rw [if_neg (show ¬ (a, b).1 = MetadataEncryptionKeyID from ha), lookup_cons_ite, ih]
      by_cases hk : k = MetadataEncryptionKeyID
      · subst hk
        have hka : ¬ MetadataEncryptionKeyID = a := fun h => ha h.symm
        simp [hka]
      · by_cases hka : k = a
        · subst hka
          simp [hk]
        · simp [hk, hka]

theorem encoding_withKeyID (p : Payload) (v : String) :
    (p.withKeyID v).encoding = p.encoding := by
  have hne : MetadataEncoding ≠ MetadataEncryptionKeyID := by decide
  simp [Payload.encoding, Payload.withKeyID, lookup_withKeyID, hne]

theorem keyID_withKeyID (p : Payload) (v : String) :
    (p.withKeyID v).Metadata.lookup MetadataEncryptionKeyID
      = (p.Metadata.lookup MetadataEncryptionKeyID).map (fun _ => v) := by
  simp [Payload.withKeyID, lookup_withKeyID]

/-- On two encrypted payloads with the same data that both carry a key id, the
body of `Decode` yields the same entry and the same store, whatever the two key
ids are, in any two worlds with the same store. -/
theorem decodeItem_encrypted_congr {σ ρ V : Type} (e : Codec σ V) (d : Deps ρ V)
    (p p0 : Payload) (k k0 : String) (w w0 : World σ ρ V)
    (hdb : w0.db = w.db) (hdata : p0.Data = p.Data)
    (he : p.encoding = MetadataEncodingEncrypted)
    (he0 : p0.encoding = MetadataEncodingEncrypted)
    (hk : p.Metadata.lookup MetadataEncryptionKeyID = some k)
    (hk0 : p0.Metadata.lookup MetadataEncryptionKeyID = some k0) :
    (decodeItem e d (some p0) w0).1 = (decodeItem e d (some p) w).1
    ∧ (decodeItem e d (some p0) w0).2.db = (decodeItem e d (some p) w).2.db := by
  rcases hdec : d.decrypt p.Data "test-key-test-key-test-key-test!" with err | b
  · simp [decodeItem, he, he0, hk, hk0, hdata, Codec.getKey, World.log, hdb, hdec]
  · rcases hret : e.Db.RetrieveRecord w.db codexCollection b with ⟨found, db1⟩
    cases found with
    | error err =>
      simp [decodeItem, he, he0, hk, hk0, hdata, Codec.getKey, World.log, hdb, hdec, hret]
    | ok storedObj =>
      rcases hm : d.jsonMarshal storedObj with err | payload <;>
        simp [decodeItem, he, he0, hk, hk0, hdata, Codec.getKey, World.log, hdb, hdec,
          hret, hm]

/-- The body of `Decode` does the same on a payload and on its re-keyed
version, in any two worlds with the same store. -/
theorem decodeItem_rekey {σ ρ V : Type} (e : Codec σ V) (d : Deps ρ V)
    (g : Payload → String) (p : Option Payload) (w w0 : World σ ρ V)
    (hdb : w0.db = w.db) :
    (decodeItem e d
        (p.map (fun p => if p.encoding = MetadataEncodingEncrypted
                          then p.withKeyID (g p) else p)) w0).1
      = (decodeItem e d p w).1
    ∧ (decodeItem e d
        (p.map (fun p => if p.encoding = MetadataEncodingEncrypted
                          then p.withKeyID (g p) else p)) w0).2.db
      = (decodeItem e d p w).2.db := by
  cases p with
  | none => simp [decodeItem, hdb]
  | some p =>
    by_cases henc : p.encoding = MetadataEncodingEncrypted
    · simp only [Option.map_some', henc, if_true]
      cases hk : p.Metadata.lookup MetadataEncryptionKeyID with
      | none =>
        have hk0 : (p.withKeyID (g p)).Metadata.lookup MetadataEncryptionKeyID = none := by
          rw [keyID_withKeyID, hk]; rfl
        have he0 : (p.withKeyID (g p)).encoding = MetadataEncodingEncrypted := by
          rw [encoding_withKeyID, henc]
        rw [decodeItem_noKeyID e d _ w0 he0 hk0, decodeItem_noKeyID e d p w henc hk]
        exact ⟨rfl, hdb⟩
      | some keyID =>
        have hk0 : (p.withKeyID (g p)).Metadata.lookup MetadataEncryptionKeyID
            = some (g p) := by
          rw [keyID_withKeyID, hk]; rfl
        have he0 : (p.withKeyID (g p)).encoding = MetadataEncodingEncrypted := by
          rw [encoding_withKeyID, henc]
        exact decodeItem_encrypted_congr e d p _ keyID (g p) w w0 hdb rfl henc he0 hk hk0
    · simp only [Option.map_some', henc, if_false]
      rw [decodeItem_plain e d p w0 henc, decodeItem_plain e d p w henc]
      exact ⟨rfl, hdb⟩

theorem runItems_rekey {σ ρ V : Type} (e : Codec σ V) (d : Deps ρ V)
    (g : Payload → String) (ps : List (Option Payload)) :
    ∀ (w w0 : World σ ρ V), w0.db = w.db →
      (runItems (decodeItem e d) (rekey g ps) w0).1 = (runItems (decodeItem e d) ps w).1
      ∧ (runItems (decodeItem e d) (rekey g ps) w0).2.db
          = (runItems (decodeItem e d) ps w).2.db := by
  induction ps with
  | nil => intro w w0 hdb; exact ⟨rfl, hdb⟩
  | cons p ps ih =>
    intro w w0 hdb
    have hstep := decodeItem_rekey e d g p w w0 hdb
    rcases hb : decodeItem e d p w with ⟨st, w1⟩
    rcases hb0 : decodeItem e d
        (p.map (fun p => if p.encoding = MetadataEncodingEncrypted
                          then p.withKeyID (g p) else p)) w0 with ⟨st0, w2⟩
    rw [hb, hb0] at hstep
    simp only at hstep
    obtain ⟨hst, hdb1⟩ := hstep
    subst hst
    cases st0 with
    | ok q =>
      have hrec := ih w1 w2 hdb1
      simp only [rekey, List.map_cons] at hrec ⊢
      rw [runItems_cons_ok _ _ _ w0 w2 q hb0, runItems_cons_ok _ _ _ w w1 q hb]
      simp only [hrec.1, hrec.2, and_self]
    | fail err => simp [rekey, runItems, hb, hb0, hdb1]
    | panic msg => simp [rekey, runItems, hb, hb0, hdb1]

/-- On an encrypted payload the body of `Decode` produces, if anything, a
payload whose only metadata entry is the plain JSON encoding. -/
theorem decodeItem_encrypted_shape {σ ρ V : Type} (e : Codec σ V) (d : Deps ρ V)
    (p q : Payload) (w : World σ ρ V)
    (he : p.encoding = MetadataEncodingEncrypted)
    (h : (decodeItem e d (some p) w).1 = Step.ok q) :
    q.Metadata = [(MetadataEncoding, MetadataEncodingJSON)] := by
  cases hk : p.Metadata.lookup MetadataEncryptionKeyID with
  | none => simp [decodeItem, he, hk] at h
  | some k =>
    rcases hdec : d.decrypt p.Data "test-key-test-key-test-key-test!" with err | b
    · simp [decodeItem, he, hk, Codec.getKey, World.log, hdec] at h
    · rcases hret : e.Db.RetrieveRecord w.db codexCollection b with ⟨found, db1⟩
      cases found with
      | error err => simp [decodeItem, he, hk, Codec.getKey, World.log, hdec, hret] at h
      | ok storedObj =>
        rcases hm : d.jsonMarshal storedObj with err | payload
        · simp [decodeItem, he, hk, Codec.getKey, World.log, hdec, hret, hm] at h
        · simp only [decodeItem, he, hk, Codec.getKey, World.log, hdec, hret, hm, ne_eq,
            not_true_eq_false, if_false, Step.ok.injEq] at h
          rw [← h]

theorem withKeyID_of_plain_json (q : Payload) (v : String)
    (h : q.Metadata = [(MetadataEncoding, MetadataEncodingJSON)]) :
    q.withKeyID v = q := by
  have hne : MetadataEncoding ≠ MetadataEncryptionKeyID := by decide
  rcases q with ⟨m, data⟩
  simp only at h
  subst h
  simp [Payload.withKeyID, hne]

/-- The body of `Decode` on a payload whose key id entry was set to `v` yields
the entry it yields on the original, with its key id entry set to `v`, and the
same store. -/
theorem decodeItem_withKeyID {σ ρ V : Type} (e : Codec σ V) (d : Deps ρ V)
    (v : String) (p : Option Payload) (w w0 : World σ ρ V) (hdb : w0.db = w.db) :
    (decodeItem e d (p.map (fun p => p.withKeyID v)) w0).1
      = (decodeItem e d p w).1.map (fun p => p.withKeyID v)
    ∧ (decodeItem e d (p.map (fun p => p.withKeyID v)) w0).2.db
      = (decodeItem e d p w).2.db := by
  cases p with
  | none => simp [decodeItem, hdb, Step.map]
  | some p =>
    have he0 : (p.withKeyID v).encoding = p.encoding := encoding_withKeyID p v
    by_cases henc : p.encoding = MetadataEncodingEncrypted
    · have he1 : (p.withKeyID v).encoding = MetadataEncodingEncrypted := he0.trans henc
      cases hk : p.Metadata.lookup MetadataEncryptionKeyID with
      | none =>
        have hk0 : (p.withKeyID v).Metadata.lookup MetadataEncryptionKeyID = none := by
          rw [keyID_withKeyID, hk]; rfl
        rw [Option.map_some', decodeItem_noKeyID e d _ w0 he1 hk0,
          decodeItem_noKeyID e d p w henc hk]
        exact ⟨rfl, hdb⟩
      | some keyID =>
        have hk0 : (p.withKeyID v).Metadata.lookup MetadataEncryptionKeyID = some v := by
          rw [keyID_withKeyID, hk]; rfl
        have hc := decodeItem_encrypted_congr e d p (p.withKeyID v) keyID v w w0 hdb rfl
          henc he1 hk hk0
        rw [Option.map_some']
        refine ⟨?_, hc.2⟩
        rw [hc.1]
        cases hst : (decodeItem e d (some p) w).1 with
        | ok q =>
          simp only [Step.map]
          rw [withKeyID_of_plain_json q v (decodeItem_encrypted_shape e d p q w henc hst)]
        | fail err => rfl
        | panic msg => rfl
    · have he1 : (p.withKeyID v).encoding ≠ MetadataEncodingEncrypted := by
        rw [he0]; exact henc
      rw [Option.map_some', decodeItem_plain e d _ w0 he1, decodeItem_plain e d p w henc]
      exact ⟨rfl, hdb⟩

theorem runItems_rekeyAll {σ ρ V : Type} (e : Codec σ V) (d : Deps ρ V)
    (v : String) (ps : List (Option Payload)) :
    ∀ (w w0 : World σ ρ V), w0.db = w.db →
      (runItems (decodeItem e d) (rekeyAll v ps) w0).1
        = (runItems (decodeItem e d) ps w).1.map (fun p => p.withKeyID v)
      ∧ (runItems (decodeItem e d) (rekeyAll v ps) w0).2.db
          = (runItems (decodeItem e d) ps w).2.db := by
  induction ps with
  | nil => intro w w0 hdb; exact ⟨rfl, hdb⟩
  | cons p ps ih =>
    intro w w0 hdb
    have hstep := decodeItem_withKeyID e d v p w w0 hdb
    rcases hb : decodeItem e d p w with ⟨st, w1⟩
    rcases hb0 : decodeItem e d (p.map (fun p => p.withKeyID v)) w0 with ⟨st0, w2⟩
    rw [hb, hb0] at hstep
    simp only at hstep
    obtain ⟨hst, hdb1⟩ := hstep
    subst hst
    cases st with
    | ok q =>
      have hrec := ih w1 w2 hdb1
      simp only [rekeyAll, List.map_cons] at hrec ⊢
      rw [runItems_cons_ok _ _ _ w0 w2 _ hb0, runItems_cons_ok _ _ _ w w1 q hb]
      simp only [hrec.1, hrec.2, and_true]
      cases (runItems (decodeItem e d) ps w1).1 <;> rfl
    | fail err => simp [rekeyAll, runItems, hb, hb0, hdb1, Step.map, Run.map]
    | panic msg => simp [rekeyAll, runItems, hb, hb0, hdb1, Step.map, Run.map]

theorem forCaller_map_toOutcome (f : Payload → Payload) (r : Run)
    (ps ps0 : List (Option Payload)) :
    ((r.map f).toOutcome ps).forCaller
      = ((r.toOutcome ps0).forCaller).mapPayloads f := by
  cases r with
  | ok qs =>
    simp [Run.map, Run.toOutcome, Outcome.forCaller, Outcome.mapPayloads, Function.comp_def]
  | fail err => rfl
  | panic msg => rfl

theorem forCaller_toOutcome (r : Run) (ps ps0 : List (Option Payload)) :
    (r.toOutcome ps).forCaller = (r.toOutcome ps0).forCaller := by
  cases r <;> rfl

/-- C10. Key resolution is constant: `getKey` returns one and the same 32-byte
key for every key id (so it never fails on an unknown one).  Hence what
`Decode` does is the same for every configured `KeyID` of the codec, and what
it returns to its caller, and the store it leaves, are the same whatever values
the "encryption-key-id" entries of the encrypted payloads hold: only the
presence of the entry matters.  When the entries of all payloads are rewritten,
plain ones included, the result differs only by that rewriting of the payloads
passed through. -/
theorem keyID_value_irrelevant {σ ρ V : Type} (e : Codec σ V) (d : Deps ρ V)
    (k1 k2 K v : String) (g : Payload → String) (ps : List (Option Payload))
    (w : World σ ρ V) :
    e.getKey k1 = e.getKey k2
    ∧ (e.getKey k1).utf8ByteSize = 32
    ∧ Codec.Decode { e with KeyID := K } d ps w = e.Decode d ps w
    ∧ (e.Decode d (rekey g ps) w).1.forCaller = (e.Decode d ps w).1.forCaller
    ∧ (e.Decode d (rekey g ps) w).2.db = (e.Decode d ps w).2.db
    ∧ (e.Decode d (rekeyAll v ps) w).1.forCaller
        = ((e.Decode d ps w).1.forCaller).mapPayloads (fun p => p.withKeyID v)
    ∧ (e.Decode d (rekeyAll v ps) w).2.db = (e.Decode d ps w).2.db := by
  refine ⟨rfl, ?_, rfl, ?_, ?_, ?_, ?_⟩
  · show ("test-key-test-key-test-key-test!" : String).utf8ByteSize = 32
    decide
  · rw [Decode_eq, Decode_eq]
    simp only [(runItems_rekey e d g ps w w rfl).1]
    exact forCaller_toOutcome _ _ _
  · rw [Decode_eq, Decode_eq]
    exact (runItems_rekey e d g ps w w rfl).2
  · rw [Decode_eq, Decode_eq]
    simp only [(runItems_rekeyAll e d v ps w w rfl).1]
    exact forCaller_map_toOutcome _ _ _ _
  · rw [Decode_eq, Decode_eq]
    exact (runItems_rekeyAll e d v ps w w rfl).2

/-! ## The body of `Encode` -/

/-- When the body of `Encode` produces an entry, the payload was not nil, its
data decoded to a map, and the entry, the token and the calls made are those
of one `Tokenized` item, whose token is the fresh identifier just drawn. -/
theorem encodeItem_ok_inv {σ ρ V : Type} (e : Codec σ V) (d : Deps ρ V)
    (p : Option Payload) (q : Payload) (w w1 : World σ ρ V)
    (h : encodeItem e d p w = (Step.ok q, w1)) :
    ∃ (p0 : Payload) (t : Tokenized V),
      p = some p0 ∧ d.jsonUnmarshal p0.Data = Except.ok (some t.content)
      ∧ t.token = (d.newUUID w.rng).1
      ∧ q = t.payload e.KeyID
      ∧ w1.trace = w.trace ++ t.events e d.strValue := by
  rcases hu : d.newUUID w.rng with ⟨uuidToCodex, rng1⟩
  cases p with
  | none => simp [encodeItem, hu] at h
  | some p0 =>
    rcases hj : d.jsonUnmarshal p0.Data with err | dataToInsert
    · simp [encodeItem, hu, hj] at h
    · cases dataToInsert with
      | none => simp [encodeItem, hu, hj] at h
      | some m =>
        rcases hi : e.Db.InsertRecord w.db codexCollection
            (Record.set m "_id" (d.strValue uuidToCodex)) with ⟨failure, db1⟩
        rcases he : d.encrypt rng1 uuidToCodex (e.getKey e.KeyID) with ⟨out, rng2⟩
        cases out with
        | error err => simp [encodeItem, hu, hj, World.log, hi, he] at h
        | ok b =>
          simp only [encodeItem, hu, hj, World.log, hi, he, Prod.mk.injEq, Step.ok.injEq] at h
          refine ⟨p0, ⟨m, uuidToCodex, b, failure⟩, rfl, hj, rfl, h.1.symm, ?_⟩
          rw [← h.2]
          simp [Tokenized.events]

theorem runItems_encode_inv {σ ρ V : Type} (e : Codec σ V) (d : Deps ρ V)
    (ps : List (Option Payload)) :
    ∀ (w w1 : World σ ρ V) (qs : List Payload),
      runItems (encodeItem e d) ps w = (Run.ok qs, w1) →
      ∃ ts : List (Tokenized V),
        List.Forall₂
          (fun p t => ∃ p0 : Payload, p = some p0
            ∧ d.jsonUnmarshal p0.Data = Except.ok (some t.content)) ps ts
        ∧ qs = ts.map (Tokenized.payload e.KeyID)
        ∧ w1.trace = w.trace ++ ts.flatMap (Tokenized.events e d.strValue) := by
  induction ps with
  | nil =>
    intro w w1 qs h
    simp only [runItems, Prod.mk.injEq, Run.ok.injEq] at h
    exact ⟨[], List.Forall₂.nil, by simp [← h.1], by simp [← h.2]⟩
  | cons p ps ih =>
    intro w w1 qs h
    obtain ⟨q, w0, qs0, hb, hr, hq⟩ := runItems_cons_inv _ p ps w w1 qs h
    obtain ⟨p0, t, hp, hj, _, hqt, htr⟩ := encodeItem_ok_inv e d p q w w0 hb
    obtain ⟨ts, hall, hqs, htrace⟩ := ih w0 w1 qs0 hr
    refine ⟨t :: ts, List.Forall₂.cons ⟨p0, hp, hj⟩ hall, ?_, ?_⟩
    · rw [hq, hqt, hqs, List.map_cons]
    · rw [htrace, htr, List.flatMap_cons, List.append_assoc]

/-- C4. Encode postcondition: when `Encode` returns a nil error, there is for
each input payload, in order, a token T, a ciphertext b and the parsed content
of that payload, such that output i has exactly the two metadata entries
encoding = "binary/encrypted" and "encryption-key-id" = the configured key id,
and data b; the calls made for item i are `getKey` on the configured key id,
the insert into "codex-data" of the parsed content with "_id" set to T, and
`encrypt` of T under that key, which returned b. -/
theorem Encode_postcondition {σ ρ V : Type} (e : Codec σ V) (d : Deps ρ V)
    (ps out : List (Option Payload)) (w w1 : World σ ρ V)
    (h : e.Encode d ps w = (Outcome.ret out none, w1)) :
    ∃ ts : List (Tokenized V),
      List.Forall₂
        (fun p t => ∃ p0 : Payload, p = some p0
          ∧ d.jsonUnmarshal p0.Data = Except.ok (some t.content)) ps ts
      ∧ out = ts.map (fun t => some
          { Metadata := [(MetadataEncoding, MetadataEncodingEncrypted),
                         (MetadataEncryptionKeyID, e.KeyID)],
            Data := t.cipher })
      ∧ w1.trace = w.trace ++ ts.flatMap (fun t =>
          [Event.getKey e.KeyID (e.getKey e.KeyID),
           Event.insertRecord codexCollection
             (Record.set t.content "_id" (d.strValue t.token)) t.failure,
           Event.encrypt t.token (e.getKey e.KeyID) (Except.ok t.cipher)]) := by
  obtain ⟨qs, hr, ho⟩ := loop_ok_inv _ ps out w w1 h
  obtain ⟨ts, hall, hqs, htrace⟩ := runItems_encode_inv e d ps w w1 qs hr
  refine ⟨ts, hall, ?_, htrace⟩
  rw [ho, hqs, List.map_map]
  rfl

/-- When `json.Unmarshal` reports an error for a payload and the payloads
before it were encoded, `Encode` returns that error beside the input batch; the
store and the trace are those the earlier payloads left, so nothing was
inserted for that payload or for a later one. -/
theorem Encode_unmarshal_error {σ ρ V : Type} (e : Codec σ V) (d : Deps ρ V)
    (pre post out : List (Option Payload)) (p : Payload) (err : Error)
    (w w1 : World σ ρ V)
    (hpre : e.Encode d pre w = (Outcome.ret out none, w1))
    (hbad : d.jsonUnmarshal p.Data = Except.error err) :
    (e.Encode d (pre ++ some p :: post) w).1
        = Outcome.ret (pre ++ some p :: post) (some err)
    ∧ (e.Encode d (pre ++ some p :: post) w).2.db = w1.db
    ∧ (e.Encode d (pre ++ some p :: post) w).2.trace = w1.trace := by
  obtain ⟨qs, hr, _⟩ := loop_ok_inv _ pre out w w1 hpre
  rw [Encode_eq, runItems_append_ok _ pre (some p :: post) w w1 qs hr]
  rcases hu : d.newUUID w1.rng with ⟨uuidToCodex, rng1⟩
  simp [runItems, encodeItem, hu, hbad, Run.toOutcome]

/-! ## Round trip -/

theorem encrypted_encoding (K b : String) :
    Payload.encoding
      { Metadata := [(MetadataEncoding, MetadataEncodingEncrypted),
                     (MetadataEncryptionKeyID, K)], Data := b }
      = MetadataEncodingEncrypted := by
  simp [Payload.encoding, List.lookup]

theorem encrypted_keyID (K : String) :
    List.lookup MetadataEncryptionKeyID
      [(MetadataEncoding, MetadataEncodingEncrypted), (MetadataEncryptionKeyID, K)]
      = some K := by
  have hne : (MetadataEncryptionKeyID == MetadataEncoding) = false := by decide
  simp [List.lookup, hne]

theorem memStore_keeps : StoreKeeps memStore (id : String → String) := by
  intro s collection i r h
  simp only [id] at h
  simp [memStore, h]

theorem demoDeps_inverts : CipherInverts demoDeps := by
  intro g x k
  exact ⟨String.mk x.data.reverse, rfl, by simp [demoDeps]⟩

/-- C1, as the code has it. Round trip up to the identity field: for a payload
P whose data decodes to the map r, if the store returns on retrieve the record
inserted under that id, `decrypt` undoes `encrypt`, and the JSON library reads
back what it writes for the stored record, then `Decode (Encode [P])` succeeds
with exactly one payload, whose data decodes to r with the field "_id" set to
the token: "_id" holds the token, and every other field is as in r. -/
theorem roundTrip_up_to_id {σ ρ V : Type} (e : Codec σ V) (d : Deps ρ V)
    (P : Payload) (r : Record V) (w : World σ ρ V)
    (hP : d.jsonUnmarshal P.Data = Except.ok (some r))
    (hstore : StoreKeeps e.Db d.strValue)
    (hcipher : CipherInverts d)
    (hjson : ∃ data,
      d.jsonMarshal (Record.set r "_id" (d.strValue (d.newUUID w.rng).1)) = Except.ok data
      ∧ d.jsonUnmarshal data
          = Except.ok (some (Record.set r "_id" (d.strValue (d.newUUID w.rng).1)))) :
    ∃ (c q : Payload) (w1 w2 : World σ ρ V) (r1 : Record V),
      e.Encode d [some P] w = (Outcome.ret [some c] none, w1)
      ∧ e.Decode d [some c] w1 = (Outcome.ret [some q] none, w2)
      ∧ d.jsonUnmarshal q.Data = Except.ok (some r1)
      ∧ r1 "_id" = some (d.strValue (d.newUUID w.rng).1)
      ∧ ∀ k, k ≠ "_id" → r1 k = r k := by
  obtain ⟨data, hm, hum⟩ := hjson
  rcases hu : d.newUUID w.rng with ⟨T, rng1⟩
  rw [hu] at hm hum
  simp only at hm hum
  obtain ⟨c0, henc, hdec⟩ := hcipher rng1 T "test-key-test-key-test-key-test!"
  rcases hi : e.Db.InsertRecord w.db codexCollection (Record.set r "_id" (d.strValue T))
    with ⟨failure, db1⟩
  have hst := hstore w.db codexCollection T (Record.set r "_id" (d.strValue T))
    (by simp [Record.set])
  rw [hi] at hst
  simp only at hst
  rcases he : d.encrypt rng1 T "test-key-test-key-test-key-test!" with ⟨out, rng2⟩
  rw [he] at henc
  simp only at henc
  subst henc
  rcases hr : e.Db.RetrieveRecord db1 codexCollection T with ⟨found, db2⟩
  rw [hr] at hst
  simp only at hst
  subst hst
  have hE : e.Encode d [some P] w
      = (Outcome.ret
          [some { Metadata := [(MetadataEncoding, MetadataEncodingEncrypted),
                               (MetadataEncryptionKeyID, e.KeyID)], Data := c0 }] none,
         { db := db1, rng := rng2,
           trace := w.trace ++ [Event.getKey e.KeyID "test-key-test-key-test-key-test!"]
             ++ [Event.insertRecord codexCollection (Record.set r "_id" (d.strValue T)) failure]
             ++ [Event.encrypt T "test-key-test-key-test-key-test!" (Except.ok c0)] }) := by
    simp [Codec.Encode, rangeLoop, encodeItem, hu, hP, Codec.getKey, World.log, hi, he]
  have hD : (e.Decode d
      [some { Metadata := [(MetadataEncoding, MetadataEncodingEncrypted),
                           (MetadataEncryptionKeyID, e.KeyID)], Data := c0 }]
      { db := db1, rng := rng2,
        trace := w.trace ++ [Event.getKey e.KeyID "test-key-test-key-test-key-test!"]
          ++ [Event.insertRecord codexCollection (Record.set r "_id" (d.strValue T)) failure]
          ++ [Event.encrypt T "test-key-test-key-test-key-test!" (Except.ok c0)] }).1
      = Outcome.ret
          [some { Metadata := [(MetadataEncoding, MetadataEncodingJSON)], Data := data }]
          none := by
    simp [Codec.Decode, rangeLoop, decodeItem, encrypted_encoding, encrypted_keyID,
      Codec.getKey, World.log, hdec, hr, hm]
  refine ⟨_, { Metadata := [(MetadataEncoding, MetadataEncodingJSON)], Data := data },
    _, _, Record.set r "_id" (d.strValue T), hE, Prod.ext hD rfl, hum,
    by simp [Record.set], ?_⟩
  intro k hk
  simp [Record.set, hk]

/-- C1, witness: the round trip of `{"user":"alice"}` through the demo codec. -/
theorem roundTrip_up_to_id_witness :
    demoDeps.jsonUnmarshal alicePayload.Data = Except.ok (some aliceRecord)
    ∧ StoreKeeps demoCodec.Db demoDeps.strValue
    ∧ CipherInverts demoDeps
    ∧ ∃ (c q : Payload)
        (w1 w2 : World (List (String × String × Record String)) Nat String)
        (r1 : Record String),
        demoCodec.Encode demoDeps [some alicePayload] demoWorld
          = (Outcome.ret [some c] none, w1)
        ∧ demoCodec.Decode demoDeps [some c] w1 = (Outcome.ret [some q] none, w2)
        ∧ demoDeps.jsonUnmarshal q.Data = Except.ok (some r1)
        ∧ r1 "_id" = some (demoDeps.strValue (demoDeps.newUUID demoWorld.rng).1)
        ∧ ∀ k, k ≠ "_id" → r1 k = aliceRecord k :=
  ⟨rfl, memStore_keeps, demoDeps_inverts,
    roundTrip_up_to_id demoCodec demoDeps alicePayload aliceRecord demoWorld rfl
      memStore_keeps demoDeps_inverts ⟨restoredPayload.Data, rfl, rfl⟩⟩

/-- C1, counterexample: with a store that returns exactly what was inserted and
a cipher that `decrypt` inverts, the payload `{"user":"alice"}` comes back from
`Decode (Encode [P])` with data that decodes to a map holding the field "_id",
which the content of P does not have: a field was added. -/
theorem roundTrip_adds_id_field :
    StoreKeeps demoCodec.Db demoDeps.strValue
    ∧ CipherInverts demoDeps
    ∧ demoDeps.jsonUnmarshal alicePayload.Data = Except.ok (some aliceRecord)
    ∧ demoCodec.Encode demoDeps [some alicePayload] demoWorld
        = (Outcome.ret [some tokenPayload] none, storedWorld)
    ∧ (demoCodec.Decode demoDeps [some tokenPayload] storedWorld).1
        = Outcome.ret [some restoredPayload] none
    ∧ demoDeps.jsonUnmarshal restoredPayload.Data
        = Except.ok (some (Record.set aliceRecord "_id" "uuid-0"))
    ∧ Record.set aliceRecord "_id" "uuid-0" "_id" = some "uuid-0"
    ∧ aliceRecord "_id" = none
    ∧ Record.set aliceRecord "_id" "uuid-0" ≠ aliceRecord :=
  ⟨memStore_keeps, demoDeps_inverts, rfl, rfl, rfl, rfl, rfl, rfl,
    fun h => Option.noConfusion (congrFun h "_id")⟩

/-! ## Failures in `Encode` -/

/-- C3, at the failing input: with a store whose every insert fails, `Encode`
of the batch holding `{"user":"alice"}` returns the encoded list with a nil
error; the trace shows the insert that failed, and the `encrypt` after it. -/
theorem Encode_ignores_insert_failure :
    (downCodec.Encode demoDeps [some alicePayload] demoWorld).1
      = Outcome.ret [some tokenPayload] none
    ∧ (downCodec.Encode demoDeps [some alicePayload] demoWorld).2.trace
      = [Event.getKey "k1" "test-key-test-key-test-key-test!",
         Event.insertRecord "codex-data" (Record.set aliceRecord "_id" "uuid-0")
           (some "store unreachable"),
         Event.encrypt "uuid-0" "test-key-test-key-test-key-test!" (Except.ok "0-diuu")] :=
  ⟨rfl, rfl⟩

/-- C8, at the failing input: the data `null` is not a JSON object, yet
`json.Unmarshal` accepts it and leaves the map nil; the assignment of "_id"
then panics, so `Encode` does not return an error. -/
theorem Encode_null_panics :
    demoDeps.jsonUnmarshal nullPayload.Data = Except.ok none
    ∧ demoCodec.Encode demoDeps [some nullPayload] demoWorld
      = (Outcome.panic "assignment to entry in nil map",
         { db := [], rng := 1,
           trace := [Event.getKey "k1" "test-key-test-key-test-key-test!"] }) :=
  ⟨rfl, rfl⟩

/-! ## Stage ordering -/

/-- C5, as the code has it. With `Compress = true` the codec list is the
tokenizing codec followed by the zlib codec, and the host applies it last to
first outbound: the compression stage is handed the original batch and the
tokenizing codec is handed what compression returned; inbound the tokenizing
codec runs first and compression is handed its result.  With
`Compress = false` the list holds the tokenizing codec only. -/
theorem chain_order {σ ρ V : Type} (d : Deps ρ V) (zlibCodec : PayloadCodec (World σ ρ V))
    (K : String) (db : Controller σ V) (ps : List (Option Payload)) (w : World σ ρ V) :
    (NewEncryptionDataConverter d zlibCodec { KeyID := K, Compress := true, Db := db }).codecs
      = [Codec.toPayloadCodec { KeyID := K, Db := db } d, zlibCodec]
    ∧ (NewEncryptionDataConverter d zlibCodec { KeyID := K, Compress := false, Db := db }).codecs
      = [Codec.toPayloadCodec { KeyID := K, Db := db } d]
    ∧ chainEncode
        (NewEncryptionDataConverter d zlibCodec
          { KeyID := K, Compress := true, Db := db }).codecs ps w
      = (match zlibCodec.Encode ps w with
          | (Outcome.ret out none, w1) => Codec.Encode { KeyID := K, Db := db } d out w1
          | (Outcome.ret out (some err), w1) => (Outcome.ret out (some err), w1)
          | (Outcome.panic msg, w1) => (Outcome.panic msg, w1))
    ∧ chainDecode
        (NewEncryptionDataConverter d zlibCodec
          { KeyID := K, Compress := true, Db := db }).codecs ps w
      = (match Codec.Decode { KeyID := K, Db := db } d ps w with
          | (Outcome.ret out none, w1) => zlibCodec.Decode out w1
          | (Outcome.ret out (some err), w1) => (Outcome.ret out (some err), w1)
          | (Outcome.panic msg, w1) => (Outcome.panic msg, w1)) := by
  refine ⟨rfl, rfl, ?_, ?_⟩
  · simp only [NewEncryptionDataConverter, if_true, List.singleton_append, chainEncode,
      Codec.toPayloadCodec]
    rcases zlibCodec.Encode ps w with ⟨o, w1⟩
    cases o with
    | ret out err => cases err <;> rfl
    | panic msg => rfl
  · simp only [NewEncryptionDataConverter, if_true, List.singleton_append, chainDecode,
      Codec.toPayloadCodec]
    rcases Codec.Decode { KeyID := K, Db := db } d ps w with ⟨o, w1⟩
    cases o with
    | ret out err =>
      cases err with
      | none =>
        simp only
        rcases zlibCodec.Decode out w1 with ⟨o2, w2⟩
        cases o2 with
        | ret out2 err2 => cases err2 <;> rfl
        | panic msg => rfl
      | some err => rfl
    | panic msg => rfl

/-- C5, counterexample: in the chain built with `Compress = true`, encoding the
batch holding `{"user":"alice"}` hands the compression stage that original
payload (it is the only call recorded, and the batch is not the token
ciphertext), and decoding the token payload runs the tokenizing codec before the
compression stage, which is handed the restored payload. -/
theorem compression_sees_original_payload :
    (chainEncode demoConverter.codecs [some alicePayload] demoWorld).2.trace
      = [Event.stageInput "zlib.Encode" [some alicePayload]]
    ∧ [some alicePayload] ≠ [some tokenPayload]
    ∧ (chainDecode demoConverter.codecs [some tokenPayload] storedWorld).2.trace
      = storedWorld.trace ++
        [Event.getKey "k1" "test-key-test-key-test-key-test!",
         Event.decrypt "0-diuu" "test-key-test-key-test-key-test!" (Except.ok "uuid-0"),
         Event.retrieveRecord "codex-data" "uuid-0"
           (Except.ok (Record.set aliceRecord "_id" "uuid-0")),
         Event.stageInput "zlib.Decode" [some restoredPayload]] :=
  ⟨rfl, by decide, rfl⟩

/-! ## Concrete runs -/

/-- C7, witness: a plain payload passes `Decode` although the store is down. -/
theorem Decode_plaintext_untouched_witness :
    (∀ p ∈ [alicePayload], p.encoding ≠ MetadataEncodingEncrypted)
    ∧ downCodec.Decode demoDeps [some alicePayload] demoWorld
      = (Outcome.ret [some alicePayload] none, demoWorld) :=
  ⟨by decide,
    Decode_plaintext_untouched downCodec demoDeps [alicePayload] demoWorld (by decide)⟩

/-- C2, witness: in a mixed batch the plain payload is found unchanged at its
index, next to the restored one. -/
theorem Decode_passThrough_witness :
    demoCodec.Decode demoDeps [some tokenPayload, some alicePayload] storedWorld
      = (Outcome.ret [some restoredPayload, some alicePayload] none,
         (demoCodec.Decode demoDeps [some tokenPayload] storedWorld).2)
    ∧ alicePayload.encoding ≠ MetadataEncodingEncrypted
    ∧ [some restoredPayload, some alicePayload][1]? = some (some alicePayload) :=
  ⟨rfl, by decide,
    Decode_passThrough demoCodec demoDeps [some tokenPayload, some alicePayload]
      [some restoredPayload, some alicePayload] storedWorld
      (demoCodec.Decode demoDeps [some tokenPayload] storedWorld).2 rfl 1 alicePayload rfl
      (by decide)⟩

/-- C6, witness: after a plain payload, an encrypted payload without key id
stops `Decode` with "no encryption key id", in an untouched world. -/
theorem Decode_missing_key_id_witness :
    demoCodec.Decode demoDeps [some alicePayload] storedWorld
      = (Outcome.ret [some alicePayload] none, storedWorld)
    ∧ unkeyedPayload.encoding = MetadataEncodingEncrypted
    ∧ unkeyedPayload.Metadata.lookup MetadataEncryptionKeyID = none
    ∧ demoCodec.Decode demoDeps
        ([some alicePayload] ++ some unkeyedPayload :: [some tokenPayload]) storedWorld
      = (Outcome.ret ([some alicePayload] ++ some unkeyedPayload :: [some tokenPayload])
          (some "no encryption key id"), storedWorld) :=
  ⟨rfl, by decide, by decide,
    Decode_missing_key_id demoCodec demoDeps [some alicePayload] [some tokenPayload]
      [some alicePayload] unkeyedPayload storedWorld storedWorld rfl (by decide) (by decide)⟩

/-- C9, witness: both methods on concrete batches. -/
theorem result_length_and_order_witness :
    (demoCodec.Encode demoDeps [some alicePayload] demoWorld
        = (Outcome.ret [some tokenPayload] none, storedWorld)
      ∧ [some tokenPayload].length = [some alicePayload].length
      ∧ ∀ (i : Nat) (p : Option Payload), [some alicePayload][i]? = some p →
          ∃ q, [some tokenPayload][i]? = some (some q)
            ∧ (encodeItem demoCodec demoDeps p
                (demoCodec.Encode demoDeps ([some alicePayload].take i) demoWorld).2).1
              = Step.ok q)
    ∧ (demoCodec.Decode demoDeps [some tokenPayload, some alicePayload] storedWorld
        = (Outcome.ret [some restoredPayload, some alicePayload] none,
           (demoCodec.Decode demoDeps [some tokenPayload] storedWorld).2)
      ∧ [some restoredPayload, some alicePayload].length
          = [some tokenPayload, some alicePayload].length
      ∧ ∀ (i : Nat) (p : Option Payload),
          [some tokenPayload, some alicePayload][i]? = some p →
          ∃ q, [some restoredPayload, some alicePayload][i]? = some (some q)
            ∧ (decodeItem demoCodec demoDeps p
                (demoCodec.Decode demoDeps
                  ([some tokenPayload, some alicePayload].take i) storedWorld).2).1
              = Step.ok q) :=
  ⟨⟨rfl,
     result_length_and_order demoCodec demoDeps (demoCodec.Encode demoDeps)
       (encodeItem demoCodec demoDeps) (Or.inl rfl) [some alicePayload] [some tokenPayload]
       demoWorld storedWorld rfl⟩,
   ⟨rfl,
     result_length_and_order demoCodec demoDeps (demoCodec.Decode demoDeps)
       (decodeItem demoCodec demoDeps) (Or.inr rfl) [some tokenPayload, some alicePayload]
       [some restoredPayload, some alicePayload] storedWorld
       (demoCodec.Decode demoDeps [some tokenPayload] storedWorld).2 rfl⟩⟩

/-- C4, witness: the postcondition on the batch holding `{"user":"alice"}`. -/
theorem Encode_postcondition_witness :
    demoCodec.Encode demoDeps [some alicePayload] demoWorld
      = (Outcome.ret [some tokenPayload] none, storedWorld)
    ∧ ∃ ts : List (Tokenized String),
      List.Forall₂
        (fun p t => ∃ p0 : Payload, p = some p0
          ∧ demoDeps.jsonUnmarshal p0.Data = Except.ok (some t.content))
        [some alicePayload] ts
      ∧ [some tokenPayload] = ts.map (fun t => some
          { Metadata := [(MetadataEncoding, MetadataEncodingEncrypted),
                         (MetadataEncryptionKeyID, demoCodec.KeyID)],
            Data := t.cipher })
      ∧ storedWorld.trace = demoWorld.trace ++ ts.flatMap (fun t =>
          [Event.getKey demoCodec.KeyID (demoCodec.getKey demoCodec.KeyID),
           Event.insertRecord codexCollection
             (Record.set t.content "_id" (demoDeps.strValue t.token)) t.failure,
           Event.encrypt t.token (demoCodec.getKey demoCodec.KeyID) (Except.ok t.cipher)]) :=
  ⟨rfl,
    Encode_postcondition demoCodec demoDeps [some alicePayload] [some tokenPayload]
      demoWorld storedWorld rfl⟩

end Encryption
